import Mathlib

/-!
Verification of the review-text ETL core (`locknlock_review.py`).

Python strings are embedded as `List Char` (`Str`); each Python function of
the parsing core is translated to an executable Lean definition, keeping the
source's names and control structure.  Index-driven `while` loops over an
immutable line list are rendered as recursion over the remaining suffix of
lines (with, where a loop needs them, the already-consumed lines carried in
reverse order), and the outer scanning loops carry an explicit fuel that the
parse entry points instantiate above the line count, which the loops never
exhaust (each iteration consumes at least one line).
-/

set_option maxRecDepth 8000

/-- Shallow embedding of Python strings: a string is its list of characters. -/
abbrev Str : Type := List Char

/-- The invisible placeholder glyph (U+FFFC) removed by the line normalizer. -/
def objChar : Char := '￼'

/-- Python `str.strip()`: remove whitespace from both ends. -/
def strip (s : Str) : Str :=
  List.rdropWhile Char.isWhitespace (List.dropWhile Char.isWhitespace s)

/-- Python `text.splitlines()`, modelled as splitting on the newline character.
The final (possibly empty) piece is kept; the normalizer drops empty pieces
anyway, so this matches Python's behaviour after normalization. -/
def splitLines : Str → List Str
  | [] => [[]]
  | c :: r =>
    if c = '\n' then [] :: splitLines r
    else
      match splitLines r with
      | [] => [[c]]
      | l :: ls => (c :: l) :: ls

/-- Python `"\n".join(lines)`. -/
def joinLines : List Str → Str
  | [] => []
  | [l] => l
  | l :: ls => l ++ '\n' :: joinLines ls

/-- One iteration of the `_normalize_lines` loop body on a raw line:
strip, drop if empty, remove every placeholder glyph, re-strip, drop if
empty.  (`line.replace("￼", "")` removes all occurrences of the single
placeholder character, hence the filter.) -/
def processLine (raw : Str) : Option Str :=
  let line := strip raw
  if line = [] then none
  else
    let line2 := strip (line.filter (fun c => c != objChar))
    if line2 = [] then none else some line2

/-- Translation of `_normalize_lines`. -/
def normalize_lines (text : Str) : List Str :=
  (splitLines text).filterMap processLine

/-! Common noise classifier and first-word extraction. -/

/-- Translation of `_is_noise_line_common`: a line is common noise iff it is
entirely digits, or entirely bullet/dash/underscore punctuation (the regex
character class covers the bullet, middle dot, hyphen, em dash, underscore). -/
def is_noise_line_common (line : Str) : Bool :=
  (decide (line ≠ []) && line.all Char.isDigit) ||
  (decide (line ≠ []) && line.all (fun c => decide (c ∈ ['•', '·', '-', '—', '_'])))

/-- Python `str.split()` with no separator: split on runs of whitespace,
dropping empty pieces.  The accumulator carries the current word reversed. -/
def splitWsAux : Str → Str → List Str
  | [], acc => if acc = [] then [] else [acc.reverse]
  | c :: rest, acc =>
    if c.isWhitespace then
      if acc = [] then splitWsAux rest [] else acc.reverse :: splitWsAux rest []
    else splitWsAux rest (c :: acc)

def splitWs (s : Str) : List Str := splitWsAux s []

/-- Translation of `_first_word`. -/
def first_word (text : Str) : Str :=
  if text = [] then []
  else
    match splitWs (strip text) with
    | [] => []
    | w :: _ => w

/-- The record emitted by both parsers: author id (작성자id), review date
(작성일자), review body (리뷰내용). -/
structure Record where
  author : Str
  date : Str
  body : Str
deriving DecidableEq, Repr

/-- The deduplication key: (author id, date, first word of the body). -/
def dedupe_key (r : Record) : Str × Str × Str := (r.author, r.date, first_word r.body)

/-- Number of rows of `rs` sharing `r`'s key (pandas `transform("size")`). -/
def group_size (rs : List Record) (r : Record) : Nat :=
  (rs.filter (fun s => decide (dedupe_key s = dedupe_key r))).length

/-- Number of rows before `r` (in `pre`) sharing `r`'s key (pandas `cumcount`). -/
def rank_before (pre : List Record) (r : Record) : Nat :=
  (pre.filter (fun s => decide (dedupe_key s = dedupe_key r))).length

/-- The keep mask of `_dedupe_keep_second_by_firstword`:
`(gsize == 1 & rank == 0) | (gsize >= 2 & rank == 1)`. -/
def keepCond (all pre : List Record) (r : Record) : Bool :=
  (decide (group_size all r = 1) && decide (rank_before pre r = 0)) ||
  (decide (2 ≤ group_size all r) && decide (rank_before pre r = 1))

/-- Translation of `_dedupe_keep_second_by_firstword`: rank every row within
its key group in input order, compute the group size, keep the rows selected
by the mask, preserving input order. -/
def dedupe_keep_second_by_firstword (rs : List Record) : List Record :=
  ((rs.enum).filter (fun p => keepCond rs (rs.take p.1) p.2)).map Prod.snd

/-- Accumulator form of the deduplicator, for reasoning: `pre` is the list of
rows already passed. -/
def dedupeGo (all : List Record) : List Record → List Record → List Record
  | _, [] => []
  | pre, r :: rest =>
    if keepCond all pre r then r :: dedupeGo all (pre ++ [r]) rest
    else dedupeGo all (pre ++ [r]) rest

/-- Kept remainder of a key group, as a function of the group `g` (in input
order) and the number `n` of its members already scanned: the sole member of a
singleton group, or the rank-1 member of a larger group, restricted to members
not yet scanned. -/
def keptFrom (g : List Record) (n : Nat) : List Record :=
  if g.length = 1 then g.drop n else ((g.drop 1).take 1).drop (n - 1)

/-! Decimal formatting (Python `str()` on integers and `{:0Nd}` padding). -/

/-- Decimal digits of a natural number, most significant first.  The fuel is
always sufficient because a number `n` has at most `n + 1` digits
(`toDecimalAux_fuel`). -/
def toDecimalAux : Nat → Nat → Str
  | 0, _ => []
  | fuel + 1, n =>
    if n < 10 then [Nat.digitChar n]
    else toDecimalAux fuel (n / 10) ++ [Nat.digitChar (n % 10)]

/-- Python `str(n)` for a natural number. -/
def toDecimal (n : Nat) : Str := toDecimalAux (n + 1) n

/-- Python `str(i)` for an integer. -/
def intToStr (i : Int) : Str :=
  if i < 0 then '-' :: toDecimal (-i).toNat else toDecimal i.toNat

/-- Python `f"{n:0wd}"` for a nonnegative value: zero-pad to width `w`. -/
def pad0 (w : Nat) (n : Nat) : Str :=
  List.replicate (w - (toDecimal n).length) '0' ++ toDecimal n

/-- Python's substring test `sub in s`. -/
def containsSub (sub : Str) : Str → Bool
  | [] => decide (sub = [])
  | c :: r => sub.isPrefixOf (c :: r) || containsSub sub r

/-- Python `" ".join(parts)`. -/
def joinSpace : List Str → Str
  | [] => []
  | [l] => l
  | l :: ls => l ++ ' ' :: joinSpace ls

/-- The no-content sentinel (내용 없음). -/
def noContent : Str := "내용 없음".data

/-! Translation of the JD (Layout A) preprocessor and parser. -/

/-- `JD_DATE_FULL_RE`: the anchored pattern `\d{4}-\d{2}-\d{2}`. -/
def jd_date_full (s : Str) : Bool :=
  match s with
  | [a, b, c, d, e, f, g, h, i, j] =>
    a.isDigit && b.isDigit && c.isDigit && d.isDigit && decide (e = '-') &&
    f.isDigit && g.isDigit && decide (h = '-') && i.isDigit && j.isDigit
  | _ => false

/-- `JD_DATE_SHORT_RE`: the anchored pattern `\d{2}-\d{2}`. -/
def jd_date_short (s : Str) : Bool :=
  match s with
  | [a, b, c, d, e] =>
    a.isDigit && b.isDigit && decide (c = '-') && d.isDigit && e.isDigit
  | _ => false

/-- `normalize_jd_date` of `parse_jd`; the short form gets the default year
prefixed (Python `f"{default_year}-{line}"`). -/
def normalize_jd_date (default_year : Int) (line : Str) : Option Str :=
  if jd_date_full line then some line
  else if jd_date_short line then some (intToStr default_year ++ '-' :: line)
  else none

/-- `is_noise_jd` of `parse_jd`: common noise, the anchor token itself, or one
of the layout's literal noise tokens. -/
def is_noise_jd (line : Str) : Bool :=
  is_noise_line_common line ||
  decide (line ∈ ["avatar".data, "pic".data, "more".data, "star".data,
    "回复".data, "有用".data])

/-- The star-search loop of `parse_jd`: advance until the current line is the
rating marker "star" or another anchor "avatar"; returns the remaining suffix
(empty when the scan ran off the end). -/
def starScan : List Str → List Str
  | [] => []
  | l :: r =>
    if l = "star".data ∨ l = "avatar".data then l :: r else starScan r

/-- The bounded date-search loop of `parse_jd` (cap 40 steps, stop early at an
anchor).  On success the returned suffix is already past the date line (the
`j += 1` at the call site); on failure it is where the scan stopped. -/
def dateScan (default_year : Int) : List Str → Nat → Option (Str × Str) × List Str
  | [], _ => (none, [])
  | l :: r, steps =>
    if 40 ≤ steps then (none, l :: r)
    else if l = "avatar".data then (none, l :: r)
    else
      match normalize_jd_date default_year l with
      | some nd => (some (nd, l), r)
      | none => dateScan default_year r (steps + 1)

/-- The optional product line of `parse_jd`: the single line right after the
date, provided it is neither the anchor nor layout noise. -/
def productStep : List Str → Option Str × List Str
  | [] => (none, [])
  | p :: r =>
    if p ≠ "avatar".data ∧ is_noise_jd p = false then (some p, r) else (none, p :: r)

/-- The body-accumulation loop of `parse_jd`: collect lines up to the next
anchor, skipping merchant replies (商家回复-prefixed lines), echoes of the
captured author / raw date / product, and layout noise; returns the collected
lines and the remaining suffix. -/
def jdBody (author date_raw : Str) (product : Option Str) :
    List Str → List Str × List Str
  | [] => ([], [])
  | c :: r =>
    if c = "avatar".data then ([], c :: r)
    else if ("商家回复".data).isPrefixOf c then jdBody author date_raw product r
    else if c = author then jdBody author date_raw product r
    else if date_raw ≠ [] ∧ c = date_raw then jdBody author date_raw product r
    else if (match product with
        | some p => decide (p ≠ []) && decide (c = p)
        | none => false) then jdBody author date_raw product r
    else
      let (cs, rem) := jdBody author date_raw product r
      (if is_noise_jd c then cs else c :: cs, rem)

/-- The outer scanning loop of `parse_jd`.  The fuel bounds the number of
outer iterations; each iteration consumes at least one line, so any fuel above
the current line count is never exhausted (`jdLoop_fuel_irrel`). -/
def jdLoop (default_year : Int) : Nat → List Str → List Record
  | 0, _ => []
  | _, [] => []
  | fuel + 1, l :: rest =>
    if l ≠ "avatar".data then jdLoop default_year fuel rest
    else
      match rest with
      | [] => []
      | a :: rest2 =>
        let author := strip a
        match starScan rest2 with
        | [] => []
        | s :: srest =>
          if s = "avatar".data then jdLoop default_year fuel (s :: srest)
          else
            match dateScan default_year srest 0 with
            | (none, rem) => jdLoop default_year fuel rem
            | (some (date, date_raw), rem) =>
              let pr := productStep rem
              let bo := jdBody author date_raw pr.1 pr.2
              let review := strip (joinSpace bo.1)
              ⟨author, date, if review = [] then noContent else review⟩ ::
                jdLoop default_year fuel bo.2

/-- The second-header-occurrence search of `_preclean_jd_text`: the index of
the second line containing "京东首页", if any. -/
def findSecondHeader : List Str → Nat → Nat → Option Nat
  | [], _, _ => none
  | l :: rest, idx, hit =>
    if containsSub ("京东首页".data) l then
      if 2 ≤ hit + 1 then some idx else findSecondHeader rest (idx + 1) (hit + 1)
    else findSecondHeader rest (idx + 1) hit

/-- Translation of `_preclean_jd_text` at the line level: drop everything
before the first "avatar" line (returning the lines unchanged when there is
none), then truncate just before the second line containing the header
phrase. -/
def preclean_jd_lines (lines : List Str) : List Str :=
  match List.findIdx? (fun l => l == "avatar".data) lines with
  | none => lines
  | some i =>
    let ls := lines.drop i
    match findSecondHeader ls 0 0 with
    | some cut => ls.take cut
    | none => ls

/-- Translation of `_preclean_jd_text`. -/
def preclean_jd_text (raw_text : Str) : Str :=
  let lines := normalize_lines raw_text
  if lines = [] then [] else joinLines (preclean_jd_lines lines)

/-- The row list produced by the `parse_jd` scanning loop on a line list. -/
def jd_rows (default_year : Int) (lines : List Str) : List Record :=
  jdLoop default_year (lines.length + 1) lines

/-- Translation of `parse_jd`: preclean, normalize, scan, deduplicate. -/
def parse_jd (text : Str) (default_year : Int) : List Record :=
  dedupe_keep_second_by_firstword
    (jd_rows default_year (normalize_lines (preclean_jd_text text)))

/-! Translation of the Tmall (Layout B) parser. -/

/-- Parse `\d{1,2}` followed by the literal `sep`, with the regex's
backtracking: two digits are preferred, falling back to one. -/
def takeNum12 (sep : Char) : Str → Option (Str × Str)
  | a :: b :: c :: r =>
    if a.isDigit && b.isDigit && decide (c = sep) then some ([a, b], r)
    else if a.isDigit && decide (b = sep) then some ([a], c :: r)
    else none
  | [a, b] => if a.isDigit && decide (b = sep) then some ([a], []) else none
  | _ => none

/-- `TMALL_PURCHASE_LINE_RE`: `^(20\d{2})年(\d{1,2})月(\d{1,2})日已购：(.+)$`,
returning the year / month / day digit groups and the trailing descriptor
(nonempty, newline-free as `.` requires). -/
def tmall_purchase_match (s : Str) : Option (Str × Str × Str × Str) :=
  match s with
  | '2' :: '0' :: c1 :: c2 :: '年' :: rest =>
    if c1.isDigit && c2.isDigit then
      match takeNum12 '月' rest with
      | some (mo, rest2) =>
        match takeNum12 '日' rest2 with
        | some (d, rest3) =>
          match rest3 with
          | '已' :: '购' :: '：' :: trail =>
            if decide (trail ≠ []) && trail.all (fun c => c != '\n') then
              some (['2', '0', c1, c2], mo, d, trail)
            else none
          | _ => none
        | none => none
      | none => none
    else none
  | _ => none

/-- `TMALL_APPEND_RE`: `^\d+天后追评：(.+)$`, returning the trailing text. -/
def tmall_append_match (s : Str) : Option Str :=
  let ds := s.takeWhile Char.isDigit
  let rest := s.dropWhile Char.isDigit
  if ds = [] then none
  else
    match rest with
    | '天' :: '后' :: '追' :: '评' :: '：' :: trail =>
      if decide (trail ≠ []) && trail.all (fun c => c != '\n') then some trail
      else none
    | _ => none

/-- Python `int()` on a digit string. -/
def strToNat (s : Str) : Nat := s.foldl (fun acc c => acc * 10 + (c.toNat - 48)) 0

/-- `normalize_date` of `parse_tmall`: `f"{int(y):04d}-{int(m):02d}-{int(d):02d}"`. -/
def tmall_normalize_date (y m d : Str) : Str :=
  pad0 4 (strToNat y) ++ '-' :: pad0 2 (strToNat m) ++ '-' :: pad0 2 (strToNat d)

/-- `is_noise_tmall`: fixed UI phrases (substring test), common noise, and
merchant-reply (商家回复) lines. -/
def is_noise_tmall (line : Str) : Bool :=
  (["为你展示真实评价".data, "默认排序".data, "款式筛选".data, "更多".data,
    "有用".data, "回复".data].any (fun p => containsSub p line)) ||
  is_noise_line_common line ||
  ("商家回复".data).isPrefixOf line

/-- `looks_like_author_id` of `parse_tmall`. -/
def looks_like_author_id (s : Str) : Bool :=
  if decide (' ' ∈ s) then false
  else if decide (s.length < 2) || decide (60 < s.length) then false
  else if (tmall_purchase_match s).isSome then false
  else if (tmall_append_match s).isSome then false
  else if ["展示".data, "排序".data, "筛选".data, "已购".data].any
      (fun x => containsSub x s) then false
  else true

/-- The lookahead of `is_start_of_next_review` beyond the candidate author
line: skip up to 8 noise lines; the next substantive line must be a
purchase-marker line (a non-noise non-marker line, or running out of lines or
steps, decides negatively). -/
def nextIsMarker : List Str → Nat → Bool
  | [], _ => false
  | l :: rest, steps =>
    if 8 ≤ steps then false
    else if is_noise_tmall l then nextIsMarker rest (steps + 1)
    else (tmall_purchase_match l).isSome

/-- Translation of `is_start_of_next_review`, phrased on the current line and
the lines after it. -/
def is_start_of_next_review (cur : Str) (after : List Str) : Bool :=
  looks_like_author_id cur && nextIsMarker after 0

/-- The backward author search of `parse_tmall`: for back in 1..6, take the
line `back` positions before the marker (when it exists) if it looks like an
author id and is not noise; `prev` holds the preceding lines nearest first,
so `lines[i - back]` is `prev[back - 1]`. -/
def pickAuthorGo (prev : List Str) : List Nat → Str
  | [] => "UNKNOWN".data
  | back :: backs =>
    match prev.get? (back - 1) with
    | some cand =>
      if looks_like_author_id cand && !is_noise_tmall cand then cand
      else pickAuthorGo prev backs
    | none => pickAuthorGo prev backs

def pickAuthor (prev : List Str) : Str := pickAuthorGo prev [1, 2, 3, 4, 5, 6]

/-- The body-accumulation loop of `parse_tmall`: collect main parts and
follow-up (追评) parts until another purchase marker or a detected
next-review start; merchant replies and noise are skipped.  `prev`
accumulates the passed lines (nearest first) for later author lookback.
Returns (main parts, append parts, final prev, remaining suffix). -/
def tmBody : List Str → List Str → List Str × List Str × List Str × List Str
  | prev, [] => ([], [], prev, [])
  | prev, l :: rest =>
    if (tmall_purchase_match l).isSome then ([], [], prev, l :: rest)
    else if is_start_of_next_review l rest then ([], [], prev, l :: rest)
    else if ("商家回复".data).isPrefixOf l then tmBody (l :: prev) rest
    else
      match tmall_append_match l with
      | some g =>
        let txt := strip g
        let res := tmBody (l :: prev) rest
        (res.1, (if txt = [] then res.2.1 else txt :: res.2.1), res.2.2)
      | none =>
        let res := tmBody (l :: prev) rest
        ((if is_noise_tmall l then res.1 else l :: res.1), res.2)

/-- The outer scanning loop of `parse_tmall`; `prev` holds already-passed
lines nearest first, and the fuel bounds outer iterations (never exhausted
when above the line count, `tmLoop_fuel_irrel`). -/
def tmLoop : Nat → List Str → List Str → List Record
  | 0, _, _ => []
  | _, _, [] => []
  | fuel + 1, prev, l :: rest =>
    match tmall_purchase_match l with
    | none => tmLoop fuel (l :: prev) rest
    | some (y, mo, d, _) =>
      let date := tmall_normalize_date y mo d
      let author := pickAuthor prev
      let res := tmBody (l :: prev) rest
      let main_text := strip (joinSpace res.1)
      let append_text := strip (joinSpace res.2.1)
      let main_text2 :=
        if append_text ≠ [] ∧ main_text = "该用户未填写评价内容".data then []
        else main_text
      let review :=
        if main_text2 ≠ [] ∧ append_text ≠ [] then
          main_text2 ++ " 追评: ".data ++ append_text
        else if append_text ≠ [] then "追评: ".data ++ append_text
        else if main_text2 ≠ [] then main_text2
        else noContent
      ⟨author, date, review⟩ :: tmLoop fuel res.2.2.1 res.2.2.2

/-- The row list produced by the `parse_tmall` scanning loop. -/
def tmall_rows (lines : List Str) : List Record :=
  tmLoop (lines.length + 1) [] lines

/-- Translation of `parse_tmall`: normalize, scan, deduplicate. -/
def parse_tmall (text : Str) : List Record :=
  dedupe_keep_second_by_firstword (tmall_rows (normalize_lines text))

/-- Shape of the digit groups produced by a successful purchase-marker match:
the year is "20" followed by two digits, month and day are one or two
digits. -/
def tmall_date_groups (y mo d : Str) : Prop :=
  (∃ a b, y = ['2', '0', a, b] ∧ a.isDigit = true ∧ b.isDigit = true) ∧
  ((∀ c ∈ mo, c.isDigit = true) ∧ (mo.length = 1 ∨ mo.length = 2)) ∧
  ((∀ c ∈ d, c.isDigit = true) ∧ (d.length = 1 ∨ d.length = 2))

/-- Sample line list for the C8 witness: a junk line, the anchor, then lines
among which the header phrase occurs twice. -/
def precleanSample : List Str :=
  ["junk".data, "avatar".data, "A".data, "x京东首页".data, "B".data,
    "y京东首页z".data, "C".data]

/-! Basic facts about `strip`. -/

theorem strip_sublist (s : Str) : List.Sublist (strip s) s := by
  unfold strip
  exact ((List.rdropWhile_prefix _ _).sublist).trans
    ((List.dropWhile_suffix _).sublist)

theorem mem_of_mem_strip {c : Char} {s : Str} (h : c ∈ strip s) : c ∈ s :=
  (strip_sublist s).subset h

theorem strip_idem (s : Str) : strip (strip s) = strip s := by
  unfold strip
  have hAid : List.dropWhile Char.isWhitespace (List.dropWhile Char.isWhitespace s)
      = List.dropWhile Char.isWhitespace s := List.dropWhile_idempotent _ _
  set A := List.dropWhile Char.isWhitespace s with hA
  have h1 : List.dropWhile Char.isWhitespace (List.rdropWhile Char.isWhitespace A)
      = List.rdropWhile Char.isWhitespace A := by
    cases hrd : List.rdropWhile Char.isWhitespace A with
    | nil => simp
    | cons x xs =>
      obtain ⟨t, ht⟩ := List.rdropWhile_prefix Char.isWhitespace A
      rw [hrd] at ht
      have hxA : A = x :: (xs ++ t) := by rw [← ht]; simp
      have hx : Char.isWhitespace x = false := by
        by_cases hxw : Char.isWhitespace x
        · rw [hxA, List.dropWhile_cons, if_pos hxw] at hAid
          have hlen := congrArg List.length hAid
          have hle : (List.dropWhile Char.isWhitespace (xs ++ t)).length ≤ (xs ++ t).length :=
            (List.dropWhile_sublist _).length_le
          simp only [List.length_cons, List.length_append] at hlen hle
          omega
        · simpa using hxw
      rw [List.dropWhile_cons, hx]
      simp
  rw [h1, List.rdropWhile_idempotent]

/-! Basic facts about `splitLines` and `joinLines`. -/

theorem splitLines_ne_nil (t : Str) : splitLines t ≠ [] := by
  induction t with
  | nil => simp [splitLines]
  | cons c r ih =>
    unfold splitLines
    by_cases h : c = '\n'
    · simp [h]
    · simp only [if_neg h]
      cases hs : splitLines r with
      | nil => simp
      | cons l ls => simp

theorem mem_splitLines_no_newline {t l : Str} (h : l ∈ splitLines t) : '\n' ∉ l := by
  induction t generalizing l with
  | nil =>
    simp [splitLines] at h
    simp [h]
  | cons c r ih =>
    unfold splitLines at h
    by_cases hc : c = '\n'
    · rw [if_pos hc, List.mem_cons] at h
      rcases h with h | h
      · simp [h]
      · exact ih h
    · rw [if_neg hc] at h
      cases hs : splitLines r with
      | nil => exact absurd hs (splitLines_ne_nil r)
      | cons m ms =>
        rw [hs, List.mem_cons] at h
        rcases h with h | h
        · have hm : '\n' ∉ m := ih (hs ▸ List.mem_cons_self m ms)
          subst h
          intro hmem
          rw [List.mem_cons] at hmem
          rcases hmem with hmem | hmem
          · exact hc hmem.symm
          · exact hm hmem
        · exact ih (hs ▸ List.mem_cons_of_mem m h)

theorem splitLines_cons (c : Char) (r : Str) :
    splitLines (c :: r) = if c = '\n' then [] :: splitLines r
      else match splitLines r with | [] => [[c]] | l :: ls => (c :: l) :: ls := rfl

theorem splitLines_of_no_newline {l : Str} (h : '\n' ∉ l) : splitLines l = [l] := by
  induction l with
  | nil => rfl
  | cons c r ih =>
    have hc : c ≠ '\n' := by intro hc; exact h (hc ▸ List.mem_cons_self c r)
    have hr : '\n' ∉ r := fun hm => h (List.mem_cons_of_mem c hm)
    rw [splitLines_cons, if_neg hc, ih hr]

theorem splitLines_append_newline {l r : Str} (h : '\n' ∉ l) :
    splitLines (l ++ '\n' :: r) = l :: splitLines r := by
  induction l with
  | nil => simp [splitLines]
  | cons c l' ih =>
    have hc : c ≠ '\n' := by intro hc; exact h (hc ▸ List.mem_cons_self c l')
    have hl' : '\n' ∉ l' := fun hm => h (List.mem_cons_of_mem c hm)
    rw [List.cons_append, splitLines_cons, if_neg hc, ih hl']

theorem splitLines_joinLines {ls : List Str} (hne : ls ≠ [])
    (h : ∀ l ∈ ls, '\n' ∉ l) : splitLines (joinLines ls) = ls := by
  induction ls with
  | nil => exact absurd rfl hne
  | cons l ls ih =>
    cases ls with
    | nil =>
      have := splitLines_of_no_newline (h l (List.mem_cons_self l []))
      simpa [joinLines] using this
    | cons l2 ls2 =>
      have h1 : '\n' ∉ l := h l (List.mem_cons_self _ _)
      have h2 : ∀ m ∈ l2 :: ls2, '\n' ∉ m := fun m hm => h m (List.mem_cons_of_mem l hm)
      have hrec := ih (by simp) h2
      show splitLines (l ++ '\n' :: joinLines (l2 :: ls2)) = l :: l2 :: ls2
      rw [splitLines_append_newline h1, hrec]

/-! Properties of the normalizer output used by several claims. -/

theorem normalize_mem {t l : Str} (h : l ∈ normalize_lines t) :
    l ≠ [] ∧ strip l = l ∧ objChar ∉ l ∧ '\n' ∉ l := by
  unfold normalize_lines at h
  rw [List.mem_filterMap] at h
  obtain ⟨raw, hraw, hpl⟩ := h
  unfold processLine at hpl
  by_cases h1 : strip raw = []
  · simp [h1] at hpl
  · simp only [if_neg h1] at hpl
    by_cases h2 : strip ((strip raw).filter (fun c => c != objChar)) = []
    · simp [h2] at hpl
    · simp only [if_neg h2, Option.some.injEq] at hpl
      subst hpl
      refine ⟨h2, strip_idem _, ?_, ?_⟩
      · intro hmem
        have := mem_of_mem_strip hmem
        rw [List.mem_filter] at this
        simp at this
      · intro hmem
        have hmem2 := mem_of_mem_strip hmem
        rw [List.mem_filter] at hmem2
        have hmem3 := mem_of_mem_strip hmem2.1
        exact mem_splitLines_no_newline hraw hmem3

theorem processLine_fixed {l : Str} (hne : l ≠ []) (hs : strip l = l)
    (ho : objChar ∉ l) : processLine l = some l := by
  unfold processLine
  have hfilter : l.filter (fun c => c != objChar) = l := by
    rw [List.filter_eq_self]
    intro a ha
    simp only [bne_iff_ne, ne_eq, decide_eq_true_eq]
    intro hobj
    exact ho (hobj ▸ ha)
  rw [hs, if_neg hne, hfilter, hs, if_neg hne]

theorem filterMap_processLine_fixed {ls : List Str}
    (h : ∀ l ∈ ls, processLine l = some l) : List.filterMap processLine ls = ls := by
  induction ls with
  | nil => rfl
  | cons l ls ih =>
    rw [List.filterMap_cons, h l (List.mem_cons_self _ _),
      ih (fun m hm => h m (List.mem_cons_of_mem l hm))]

/-- Claim C9: the line normalizer is idempotent — normalizing the result of
rejoining `normalize_lines t` with newlines yields exactly `normalize_lines t`. -/
theorem normalize_lines_idem (t : Str) :
    normalize_lines (joinLines (normalize_lines t)) = normalize_lines t := by
  by_cases hL : normalize_lines t = []
  · rw [hL]
    show normalize_lines (joinLines []) = []
    rfl
  · have hsplit : splitLines (joinLines (normalize_lines t)) = normalize_lines t :=
      splitLines_joinLines hL (fun l hl => (normalize_mem hl).2.2.2)
    show (splitLines (joinLines (normalize_lines t))).filterMap processLine
        = normalize_lines t
    rw [hsplit]
    exact filterMap_processLine_fixed (fun l hl =>
      have ⟨h1, h2, h3, _⟩ := normalize_mem hl
      processLine_fixed h1 h2 h3)

/-- Claim C10: every line in the normalizer's output is non-empty, equal to
itself stripped of surrounding whitespace, and free of the invisible
placeholder character U+FFFC (all occurrences removed). -/
theorem normalize_lines_invariants (t l : Str) (h : l ∈ normalize_lines t) :
    l ≠ [] ∧ strip l = l ∧ objChar ∉ l :=
  have ⟨h1, h2, h3, _⟩ := normalize_mem h
  ⟨h1, h2, h3⟩

/-- Concrete instantiation of the C10 invariants on a sample input. -/
theorem normalize_lines_invariants_witness :
    "ab".data ≠ [] ∧ strip "ab".data = "ab".data ∧ objChar ∉ "ab".data :=
  normalize_lines_invariants ("  ab \n\n x".data) ("ab".data) (by decide)

theorem dedupeGo_eq (all : List Record) : ∀ (l pre : List Record), pre ++ l = all →
    ((List.enumFrom pre.length l).filter (fun p => keepCond all (all.take p.1) p.2)).map
        Prod.snd
      = dedupeGo all pre l := by
  intro l
  induction l with
  | nil => intro pre _; simp [dedupeGo, List.enumFrom]
  | cons r rest ih =>
    intro pre hall
    have htake : all.take pre.length = pre := by
      rw [← hall]; exact List.take_left pre (r :: rest)
    have hall' : (pre ++ [r]) ++ rest = all := by
      rw [List.append_assoc]; simpa using hall
    have hlen' : (pre ++ [r]).length = pre.length + 1 := by simp
    have hrec := ih (pre ++ [r]) hall'
    rw [hlen'] at hrec
    show ((((pre.length, r) :: List.enumFrom (pre.length + 1) rest)).filter
        (fun p => keepCond all (all.take p.1) p.2)).map Prod.snd
      = dedupeGo all pre (r :: rest)
    rw [List.filter_cons]
    simp only [htake]
    unfold dedupeGo
    by_cases hc : keepCond all pre r
    · rw [if_pos hc, if_pos hc, List.map_cons, hrec]
    · rw [if_neg hc, if_neg hc, hrec]

theorem dedupe_eq_dedupeGo (rs : List Record) :
    dedupe_keep_second_by_firstword rs = dedupeGo rs [] rs := by
  have := dedupeGo_eq rs rs [] (by simp)
  simpa [dedupe_keep_second_by_firstword, List.enum] using this

theorem dedupeGo_filter (k : Str × Str × Str) (all : List Record) :
    ∀ (l pre : List Record), pre ++ l = all →
    (dedupeGo all pre l).filter (fun r => decide (dedupe_key r = k))
      = keptFrom (all.filter (fun r => decide (dedupe_key r = k)))
          ((pre.filter (fun r => decide (dedupe_key r = k))).length) := by
  intro l
  induction l with
  | nil =>
    intro pre hall
    have hpre : pre = all := by simpa using hall
    subst hpre
    rw [show dedupeGo pre pre [] = [] from rfl, List.filter_nil]
    unfold keptFrom
    set g := pre.filter (fun r => decide (dedupe_key r = k)) with hg
    by_cases hg1 : g.length = 1
    · rw [if_pos hg1]
      symm
      rw [List.drop_eq_nil_iff]
    · rw [if_neg hg1]
      symm
      rw [List.drop_eq_nil_iff]
      have htk : (((g.drop 1).take 1)).length ≤ 1 := by
        have := List.length_take 1 (g.drop 1)
        omega
      rcases Nat.eq_zero_or_pos g.length with h0 | hpos
      · have hnil : g = [] := List.length_eq_zero.mp h0
        simp [hnil]
      · omega
  | cons r rest ih =>
    intro pre hall
    set P : Record → Bool := fun s => decide (dedupe_key s = k) with hP
    have hall' : (pre ++ [r]) ++ rest = all := by
      rw [List.append_assoc]; simpa using hall
    have hrec := ih (pre ++ [r]) hall'
    by_cases hk : dedupe_key r = k
    · have hPr : P r = true := by simp [hP, hk]
      have hfeq : (fun s => decide (dedupe_key s = dedupe_key r)) = P := by
        funext s; simp [hP, hk]
      have hgsz : group_size all r = (all.filter P).length := by
        unfold group_size; rw [hfeq]
      have hrk : rank_before pre r = (pre.filter P).length := by
        unfold rank_before; rw [hfeq]
      have hkeep : keepCond all pre r = true ↔
          (((all.filter P).length = 1 ∧ (pre.filter P).length = 0) ∨
           (2 ≤ (all.filter P).length ∧ (pre.filter P).length = 1)) := by
        unfold keepCond
        rw [hgsz, hrk]
        simp
      have hprelen : ((pre ++ [r]).filter P).length = (pre.filter P).length + 1 := by
        rw [List.filter_append]; simp [hPr]
      have hgdecomp : all.filter P = pre.filter P ++ r :: rest.filter P := by
        rw [← hall, List.filter_append, List.filter_cons, if_pos hPr]
      have hrg : (all.filter P).length
          = (pre.filter P).length + 1 + (rest.filter P).length := by
        rw [hgdecomp]; simp; omega
      unfold dedupeGo
      by_cases hc : keepCond all pre r
      · rw [if_pos hc, List.filter_cons, if_pos hPr, hrec, hprelen]
        rw [hkeep] at hc
        unfold keptFrom
        rcases hc with ⟨hg1, hn0⟩ | ⟨hg2, hn1⟩
        · rw [if_pos hg1, if_pos hg1]
          have hrest0 : (rest.filter P).length = 0 := by omega
          have hgr : all.filter P = [r] := by
            rw [hgdecomp, List.length_eq_zero.mp hn0, List.length_eq_zero.mp hrest0]
            rfl
          rw [hgr, hn0]
          simp
        · have hgne : (all.filter P).length ≠ 1 := by omega
          rw [if_neg hgne, if_neg hgne]
          have hdrop1 : (all.filter P).drop 1 = r :: rest.filter P := by
            rw [hgdecomp]
            exact List.drop_left' hn1
          rw [hdrop1, hn1]
          simp
      · rw [if_neg hc, hrec, hprelen]
        rw [hkeep] at hc
        push_neg at hc
        unfold keptFrom
        by_cases hg1 : (all.filter P).length = 1
        · rw [if_pos hg1, if_pos hg1]
          have hn : (pre.filter P).length ≠ 0 := hc.1 hg1
          rw [List.drop_eq_nil_of_le (by omega), List.drop_eq_nil_of_le (by omega)]
        · rw [if_neg hg1, if_neg hg1]
          rcases Nat.eq_zero_or_pos (pre.filter P).length with hn0 | hnpos
          · rw [hn0]
          · have hn1 : (pre.filter P).length ≠ 1 := by
              intro h1
              have hG2 : 2 ≤ (all.filter P).length := by omega
              exact hc.2 hG2 h1
            have htk : (((all.filter P).drop 1).take 1).length ≤ 1 := by
              have := List.length_take 1 ((all.filter P).drop 1)
              omega
            rw [List.drop_eq_nil_of_le (by omega), List.drop_eq_nil_of_le (by omega)]
    · have hPr : P r = false := by simp [hP, hk]
      have hprelen : ((pre ++ [r]).filter P).length = (pre.filter P).length := by
        rw [List.filter_append]; simp [hPr]
      unfold dedupeGo
      by_cases hc : keepCond all pre r
      · rw [if_pos hc]
        have hskip : (r :: dedupeGo all (pre ++ [r]) rest).filter P
            = (dedupeGo all (pre ++ [r]) rest).filter P := by
          rw [List.filter_cons]
          simp [hPr]
        rw [hskip, hrec, hprelen]
      · rw [if_neg hc, hrec, hprelen]

theorem dedupe_filter_key (rs : List Record) (k : Str × Str × Str) :
    (dedupe_keep_second_by_firstword rs).filter (fun r => decide (dedupe_key r = k))
      = if (rs.filter (fun r => decide (dedupe_key r = k))).length = 1
        then rs.filter (fun r => decide (dedupe_key r = k))
        else ((rs.filter (fun r => decide (dedupe_key r = k))).drop 1).take 1 := by
  rw [dedupe_eq_dedupeGo]
  have h := dedupeGo_filter k rs rs [] (by simp)
  simp only [List.filter_nil, List.length_nil] at h
  rw [h]
  unfold keptFrom
  by_cases hg : (rs.filter (fun r => decide (dedupe_key r = k))).length = 1
  · rw [if_pos hg, if_pos hg, List.drop_zero]
  · rw [if_neg hg, if_neg hg]
    norm_num

theorem dedupe_sublist (rs : List Record) :
    List.Sublist (dedupe_keep_second_by_firstword rs) rs := by
  unfold dedupe_keep_second_by_firstword
  have h1 : List.Sublist ((rs.enum).filter (fun p => keepCond rs (rs.take p.1) p.2))
      rs.enum := List.filter_sublist _
  have h2 := h1.map Prod.snd
  have h3 : (rs.enum).map Prod.snd = rs := List.enumFrom_map_snd 0 rs
  rw [h3] at h2
  exact h2

/-- Claim C1: the deduplicator groups records by (author, date, first
whitespace-delimited token of body) and keeps exactly the sole member of every
singleton group and the rank-1 (second) member of every group of size two or
more, in original relative order; in particular three same-key records with
distinct bodies B1, B2, B3 reduce to exactly the record with body B2. -/
theorem dedupe_keep_second_spec :
    (∀ rs : List Record, List.Sublist (dedupe_keep_second_by_firstword rs) rs) ∧
    (∀ (rs : List Record) (k : Str × Str × Str),
      (dedupe_keep_second_by_firstword rs).filter (fun r => decide (dedupe_key r = k))
        = if (rs.filter (fun r => decide (dedupe_key r = k))).length = 1
          then rs.filter (fun r => decide (dedupe_key r = k))
          else ((rs.filter (fun r => decide (dedupe_key r = k))).drop 1).take 1) ∧
    (∀ a d b1 b2 b3 : Str, first_word b1 = first_word b2 → first_word b3 = first_word b2 →
      b1 ≠ b2 → b2 ≠ b3 → b1 ≠ b3 →
      dedupe_keep_second_by_firstword [⟨a, d, b1⟩, ⟨a, d, b2⟩, ⟨a, d, b3⟩]
        = [⟨a, d, b2⟩]) := by
  refine ⟨dedupe_sublist, dedupe_filter_key, ?_⟩
  intro a d b1 b2 b3 h12 h32 _ _ _
  have hk1 : dedupe_key ⟨a, d, b1⟩ = dedupe_key ⟨a, d, b2⟩ := by
    simp [dedupe_key, h12]
  have hk3 : dedupe_key ⟨a, d, b3⟩ = dedupe_key ⟨a, d, b2⟩ := by
    simp [dedupe_key, h32]
  set k := dedupe_key ⟨a, d, b2⟩ with hkdef
  set rs : List Record := [⟨a, d, b1⟩, ⟨a, d, b2⟩, ⟨a, d, b3⟩] with hrs
  have hfilter_all : rs.filter (fun r => decide (dedupe_key r = k)) = rs := by
    rw [hrs]
    simp [List.filter, hk1, hk3]
  have hchar := dedupe_filter_key rs k
  rw [hfilter_all] at hchar
  have hlen : rs.length = 3 := rfl
  rw [if_neg (by omega)] at hchar
  have hsub := dedupe_sublist rs
  have hself : (dedupe_keep_second_by_firstword rs).filter
      (fun r => decide (dedupe_key r = k)) = dedupe_keep_second_by_firstword rs := by
    rw [List.filter_eq_self]
    intro x hx
    have hxmem := hsub.subset hx
    rw [hrs] at hxmem
    simp only [List.mem_cons, List.not_mem_nil, or_false] at hxmem
    rcases hxmem with h | h | h
    · simp [h, hk1]
    · simp [h]
    · simp [h, hk3]
  rw [hself] at hchar
  rw [hchar, hrs]
  rfl

/-- Concrete application of the C1 theorem: three records sharing author,
date and first body word collapse to the middle one. -/
theorem dedupe_keep_second_spec_witness :
    dedupe_keep_second_by_firstword
        [⟨"u".data, "2026-01-01".data, "hi there".data⟩,
         ⟨"u".data, "2026-01-01".data, "hi you".data⟩,
         ⟨"u".data, "2026-01-01".data, "hi all".data⟩]
      = [⟨"u".data, "2026-01-01".data, "hi you".data⟩] :=
  dedupe_keep_second_spec.2.2 ("u".data) ("2026-01-01".data)
    ("hi there".data) ("hi you".data) ("hi all".data)
    (by decide) (by decide) (by decide) (by decide) (by decide)

/-- Claim C2 counterexample: on the stated Layout-A scenario (anchor, author
"A1", a filler line, the rating marker, "01-13", two content lines, then
another anchor), with default_year 2026, the output is NOT a single record
whose body is the two content lines joined by a space. -/
theorem parse_jd_scenario_counterexample :
    parse_jd "avatar\nA1\nx\nstar\n01-13\nhello\nworld\navatar".data 2026
      ≠ [⟨"A1".data, "2026-01-13".data, "hello world".data⟩] := by decide

/-- Claim C2 (amended): on the Layout-A scenario, exactly one record is
produced with author "A1" and date "2026-01-13", but its body is the second
content line alone — the first content line, being the line right after the
date, is captured as the optional product and excluded from the body. -/
theorem parse_jd_scenario :
    parse_jd "avatar\nA1\nx\nstar\n01-13\nhello\nworld\navatar".data 2026
      = [⟨"A1".data, "2026-01-13".data, "world".data⟩] := by decide

/-- Claim C3: Layout-B scenario — author-like line "N**1", its purchase
marker, a content line, then a second review (its author line and purchase
marker): exactly two records, each with its own author and date; the content
line appears only in the first record's body, and in no field of the second
(whose body is the no-content sentinel). -/
theorem parse_tmall_scenario :
    parse_tmall
        "N**1\n2025年3月12日已购：desc\n实物很好\n萱**麻\n2025年3月15日已购：desc2".data
      = [⟨"N**1".data, "2025-03-12".data, "实物很好".data⟩,
         ⟨"萱**麻".data, "2025-03-15".data, noContent⟩] := by decide

/-! Membership invariants of the two scanning loops. -/

theorem dateScan_some {dy : Int} : ∀ (s : List Str) (steps : Nat) (nd raw : Str)
    (rem : List Str), dateScan dy s steps = (some (nd, raw), rem) →
    normalize_jd_date dy raw = some nd := by
  intro s
  induction s with
  | nil => intro steps nd raw rem h; simp [dateScan] at h
  | cons l r ih =>
    intro steps nd raw rem h
    simp only [dateScan] at h
    by_cases h40 : 40 ≤ steps
    · rw [if_pos h40] at h; simp at h
    · rw [if_neg h40] at h
      by_cases hav : l = "avatar".data
      · rw [if_pos hav] at h; simp at h
      · rw [if_neg hav] at h
        cases hnd : normalize_jd_date dy l with
        | some nd2 =>
          rw [hnd] at h
          simp only [Prod.mk.injEq, Option.some.injEq] at h
          obtain ⟨⟨hnd2, hraw⟩, _⟩ := h
          subst hnd2; subst hraw
          exact hnd
        | none =>
          rw [hnd] at h
          exact ih _ _ _ _ h

theorem jdLoop_mem {dy : Int} : ∀ (fuel : Nat) (ls : List Str) (r : Record),
    r ∈ jdLoop dy fuel ls →
    (∃ line, normalize_jd_date dy line = some r.date) ∧ r.body ≠ [] := by
  intro fuel
  induction fuel with
  | zero => intro ls r h; simp [jdLoop] at h
  | succ fuel ih =>
    intro ls r h
    cases ls with
    | nil => simp [jdLoop] at h
    | cons l rest =>
      simp only [jdLoop] at h
      by_cases hl : l ≠ "avatar".data
      · rw [if_pos hl] at h; exact ih rest r h
      · rw [if_neg hl] at h
        cases rest with
        | nil => simp at h
        | cons a rest2 =>
          simp only at h
          cases hss : starScan rest2 with
          | nil => simp [hss] at h
          | cons s srest =>
            simp only [hss] at h
            by_cases hs : s = "avatar".data
            · rw [if_pos hs] at h; exact ih _ r h
            · rw [if_neg hs] at h
              cases hds : dateScan dy srest 0 with
              | mk od rem =>
                cases od with
                | none => simp only [hds] at h; exact ih _ r h
                | some dd =>
                  cases dd with
                  | mk date draw =>
                    simp only [hds] at h
                    simp only [List.mem_cons] at h
                    rcases h with h | h
                    · subst h
                      refine ⟨⟨draw, dateScan_some srest 0 date draw rem hds⟩, ?_⟩
                      show (if strip (joinSpace _) = [] then noContent
                        else strip (joinSpace _)) ≠ []
                      by_cases hrev : strip (joinSpace
                          (jdBody (strip a) draw (productStep rem).1
                            (productStep rem).2).1) = []
                      · rw [if_pos hrev]; decide
                      · rw [if_neg hrev]; exact hrev
                    · exact ih _ r h

theorem takeNum12_groups {sep : Char} : ∀ (s g r : Str),
    takeNum12 sep s = some (g, r) →
    (∀ c ∈ g, c.isDigit = true) ∧ (g.length = 1 ∨ g.length = 2) := by
  intro s g r h
  cases s with
  | nil => simp [takeNum12] at h
  | cons a s1 =>
    cases s1 with
    | nil => simp [takeNum12] at h
    | cons b s2 =>
      cases s2 with
      | nil =>
        simp only [takeNum12] at h
        by_cases hd : a.isDigit && decide (b = sep)
        · rw [if_pos hd] at h
          simp only [Option.some.injEq, Prod.mk.injEq] at h
          obtain ⟨hg, _⟩ := h
          subst hg
          rw [Bool.and_eq_true] at hd
          refine ⟨?_, Or.inl rfl⟩
          intro c hc
          simp only [List.mem_singleton] at hc
          subst hc
          exact hd.1
        · rw [if_neg hd] at h
          simp at h
      | cons c3 s3 =>
        simp only [takeNum12] at h
        by_cases h2 : a.isDigit && b.isDigit && decide (c3 = sep)
        · rw [if_pos h2] at h
          simp only [Option.some.injEq, Prod.mk.injEq] at h
          obtain ⟨hg, _⟩ := h
          subst hg
          rw [Bool.and_eq_true, Bool.and_eq_true] at h2
          refine ⟨?_, Or.inr rfl⟩
          intro c hc
          simp only [List.mem_cons, List.mem_singleton, List.not_mem_nil, or_false] at hc
          rcases hc with hc | hc
          · subst hc; exact h2.1.1
          · subst hc; exact h2.1.2
        · rw [if_neg h2] at h
          by_cases h1 : a.isDigit && decide (b = sep)
          · rw [if_pos h1] at h
            simp only [Option.some.injEq, Prod.mk.injEq] at h
            obtain ⟨hg, _⟩ := h
            subst hg
            rw [Bool.and_eq_true] at h1
            refine ⟨?_, Or.inl rfl⟩
            intro c hc
            simp only [List.mem_singleton] at hc
            subst hc
            exact h1.1
          · rw [if_neg h1] at h
            simp at h

theorem tmall_purchase_groups : ∀ (s y mo d rest : Str),
    tmall_purchase_match s = some (y, mo, d, rest) → tmall_date_groups y mo d := by
  intro s y mo d rest h
  unfold tmall_purchase_match at h
  split at h
  case h_2 => simp at h
  case h_1 c1 c2 rest0 =>
    by_cases hdig : c1.isDigit && c2.isDigit
    · rw [if_pos hdig] at h
      rw [Bool.and_eq_true] at hdig
      cases hmo : takeNum12 '月' rest0 with
      | none => rw [hmo] at h; simp at h
      | some p1 =>
        obtain ⟨mo1, rest2⟩ := p1
        simp only [hmo] at h
        cases hd : takeNum12 '日' rest2 with
        | none => simp only [hd] at h; simp at h
        | some p2 =>
          obtain ⟨d1, rest3⟩ := p2
          simp only [hd] at h
          split at h
          next trail =>
            by_cases htr : decide (trail ≠ []) && trail.all (fun c => c != '\n')
            · rw [if_pos htr] at h
              simp only [Option.some.injEq, Prod.mk.injEq] at h
              obtain ⟨hy, hmo1, hd1, _⟩ := h
              subst hy; subst hmo1; subst hd1
              exact ⟨⟨c1, c2, rfl, hdig.1, hdig.2⟩,
                takeNum12_groups _ _ _ hmo,
                takeNum12_groups _ _ _ hd⟩
            · rw [if_neg htr] at h
              simp at h
          next => simp at h
    · rw [if_neg hdig] at h
      simp at h

/-- Bodies built by the Tmall review-composition branch are never empty. -/
theorem tmall_review_ne_nil (m a : Str) :
    (if m ≠ [] ∧ a ≠ [] then m ++ " 追评: ".data ++ a
     else if a ≠ [] then "追评: ".data ++ a
     else if m ≠ [] then m
     else noContent) ≠ [] := by
  by_cases h1 : m ≠ [] ∧ a ≠ []
  · rw [if_pos h1]
    simp [h1.1]
  · rw [if_neg h1]
    by_cases h2 : a ≠ []
    · rw [if_pos h2]
      simp
    · rw [if_neg h2]
      by_cases h3 : m ≠ []
      · rw [if_pos h3]
        exact h3
      · rw [if_neg h3]
        decide

theorem tmLoop_mem : ∀ (fuel : Nat) (prev ls : List Str) (r : Record),
    r ∈ tmLoop fuel prev ls →
    (∃ y mo d, tmall_date_groups y mo d ∧ r.date = tmall_normalize_date y mo d) ∧
    r.body ≠ [] := by
  intro fuel
  induction fuel with
  | zero => intro prev ls r h; simp [tmLoop] at h
  | succ fuel ih =>
    intro prev ls r h
    cases ls with
    | nil => simp [tmLoop] at h
    | cons l rest =>
      simp only [tmLoop] at h
      cases hm : tmall_purchase_match l with
      | none => simp only [hm] at h; exact ih _ _ r h
      | some q =>
        obtain ⟨y, mo, d, desc⟩ := q
        simp only [hm] at h
        rw [List.mem_cons] at h
        rcases h with h | h
        · subst h
          refine ⟨⟨y, mo, d, tmall_purchase_groups l y mo d desc hm, rfl⟩, ?_⟩
          exact tmall_review_ne_nil _ _
        · exact ih _ _ r h

/-- Every record of `parse_jd` has a date produced by `normalize_jd_date` and
a non-empty body. -/
theorem parse_jd_mem {t : Str} {dy : Int} {r : Record} (h : r ∈ parse_jd t dy) :
    (∃ line, normalize_jd_date dy line = some r.date) ∧ r.body ≠ [] := by
  unfold parse_jd at h
  exact jdLoop_mem _ _ r ((dedupe_sublist _).subset h)

/-- Every record of `parse_tmall` has a date formatted from a purchase-marker
match and a non-empty body. -/
theorem parse_tmall_mem {t : Str} {r : Record} (h : r ∈ parse_tmall t) :
    (∃ y mo d, tmall_date_groups y mo d ∧ r.date = tmall_normalize_date y mo d) ∧
    r.body ≠ [] := by
  unfold parse_tmall at h
  exact tmLoop_mem _ _ _ r ((dedupe_sublist _).subset h)

/-- Claim C5: no record emitted by either parser has an empty body; on an
input whose whole candidate body region is filtered as noise, the record is
still emitted with the fixed no-content sentinel rather than dropped. -/
theorem body_nonempty_invariant :
    (∀ (t : Str) (dy : Int) (r : Record), r ∈ parse_jd t dy → r.body ≠ []) ∧
    (∀ (t : Str) (r : Record), r ∈ parse_tmall t → r.body ≠ []) ∧
    parse_jd "avatar\nA1\nstar\n01-13\nstar\npic\n5\navatar".data 2026
      = [⟨"A1".data, "2026-01-13".data, noContent⟩] :=
  ⟨fun _ _ _ h => (parse_jd_mem h).2, fun _ _ h => (parse_tmall_mem h).2, by decide⟩

/-- Concrete application of the C5 theorem. -/
theorem body_nonempty_invariant_witness :
    (⟨"A1".data, "2026-01-13".data, "world".data⟩ : Record).body ≠ [] :=
  body_nonempty_invariant.1 ("avatar\nA1\nx\nstar\n01-13\nhello\nworld\navatar".data)
    2026 ⟨"A1".data, "2026-01-13".data, "world".data⟩ (by decide)

/-! Decimal formatting lemmas, toward the date-shape invariant (C4). -/

theorem char_isDigit_toNat {c : Char} (h : c.isDigit = true) :
    48 ≤ c.toNat ∧ c.toNat ≤ 57 := by
  unfold Char.isDigit at h
  rw [Bool.and_eq_true] at h
  obtain ⟨h1, h2⟩ := h
  have g1 : (48 : UInt32) ≤ c.val := of_decide_eq_true h1
  have g2 : c.val ≤ (57 : UInt32) := of_decide_eq_true h2
  exact ⟨UInt32.le_toNat_of_le (by norm_num) g1, UInt32.toNat_le_of_le (by norm_num) g2⟩

theorem digitChar_isDigit {n : Nat} (h : n < 10) : (Nat.digitChar n).isDigit = true := by
  interval_cases n <;> decide

theorem toDecimalAux_fuel : ∀ (f1 f2 n : Nat), n < f1 → n < f2 →
    toDecimalAux f1 n = toDecimalAux f2 n := by
  intro f1
  induction f1 with
  | zero => intro f2 n h1 _; omega
  | succ f1 ih =>
    intro f2 n h1 h2
    cases f2 with
    | zero => omega
    | succ f2 =>
      simp only [toDecimalAux]
      by_cases h10 : n < 10
      · rw [if_pos h10, if_pos h10]
      · rw [if_neg h10, if_neg h10, ih f2 (n / 10) (by omega) (by omega)]

theorem toDecimal_lt10 {n : Nat} (h : n < 10) : toDecimal n = [Nat.digitChar n] := by
  unfold toDecimal
  simp only [toDecimalAux]
  rw [if_pos h]

theorem toDecimal_ge10 {n : Nat} (h : 10 ≤ n) :
    toDecimal n = toDecimal (n / 10) ++ [Nat.digitChar (n % 10)] := by
  unfold toDecimal
  conv_lhs => rw [show n + 1 = n + 1 from rfl]
  simp only [toDecimalAux]
  rw [if_neg (by omega)]
  congr 1
  exact toDecimalAux_fuel n (n / 10 + 1) (n / 10) (by omega) (by omega)

theorem toDecimal_all_digit : ∀ (n : Nat), ∀ c ∈ toDecimal n, c.isDigit = true := by
  intro n
  induction n using Nat.strong_induction_on with
  | _ n ih =>
    intro c hc
    by_cases h10 : n < 10
    · rw [toDecimal_lt10 h10] at hc
      simp only [List.mem_singleton] at hc
      subst hc
      exact digitChar_isDigit h10
    · rw [toDecimal_ge10 (by omega)] at hc
      rw [List.mem_append] at hc
      rcases hc with hc | hc
      · exact ih (n / 10) (by omega) c hc
      · simp only [List.mem_singleton] at hc
        subst hc
        exact digitChar_isDigit (by omega)

theorem toDecimal_length_le : ∀ (k n : Nat), 1 ≤ k → n < 10 ^ k →
    (toDecimal n).length ≤ k := by
  intro k
  induction k with
  | zero => intro n h; omega
  | succ k ih =>
    intro n _ hn
    by_cases h10 : n < 10
    · rw [toDecimal_lt10 h10]
      simp
    · rw [toDecimal_ge10 (by omega), List.length_append]
      have hk1 : 1 ≤ k := by
        by_contra hk0
        have : k = 0 := by omega
        subst this
        simp at hn
        omega
      have hdiv : n / 10 < 10 ^ k := by
        rw [Nat.div_lt_iff_lt_mul (by norm_num)]
        calc n < 10 ^ (k + 1) := hn
          _ = 10 ^ k * 10 := by ring
      have := ih (n / 10) hk1 hdiv
      simp only [List.length_singleton]
      omega

theorem toDecimal_ne_nil (n : Nat) : toDecimal n ≠ [] := by
  by_cases h10 : n < 10
  · rw [toDecimal_lt10 h10]; simp
  · rw [toDecimal_ge10 (by omega)]; simp

theorem toDecimal_length_ge : ∀ (k n : Nat), 10 ^ k ≤ n →
    k + 1 ≤ (toDecimal n).length := by
  intro k
  induction k with
  | zero =>
    intro n _
    have := toDecimal_ne_nil n
    cases hd : toDecimal n with
    | nil => exact absurd hd this
    | cons c r => simp [hd]
  | succ k ih =>
    intro n hn
    have h10 : 10 ≤ n := by
      calc 10 = 10 ^ 1 := by norm_num
        _ ≤ 10 ^ (k + 1) := Nat.pow_le_pow_right (by norm_num) (by omega)
        _ ≤ n := hn
    rw [toDecimal_ge10 h10, List.length_append]
    have hdiv : 10 ^ k ≤ n / 10 := by
      rw [Nat.le_div_iff_mul_le (by norm_num)]
      calc 10 ^ k * 10 = 10 ^ (k + 1) := by ring
        _ ≤ n := hn
    have := ih (n / 10) hdiv
    simp only [List.length_singleton]
    omega

theorem toDecimal_length4 {n : Nat} (h1 : 1000 ≤ n) (h2 : n ≤ 9999) :
    (toDecimal n).length = 4 := by
  have hle := toDecimal_length_le 4 n (by norm_num) (by norm_num; omega)
  have hge := toDecimal_length_ge 3 n (by norm_num; omega)
  omega

theorem pad0_length {w n : Nat} (h : (toDecimal n).length ≤ w) :
    (pad0 w n).length = w := by
  unfold pad0
  rw [List.length_append, List.length_replicate]
  omega

theorem pad0_all_digit (w n : Nat) : ∀ c ∈ pad0 w n, c.isDigit = true := by
  intro c hc
  unfold pad0 at hc
  rw [List.mem_append] at hc
  rcases hc with hc | hc
  · have := List.eq_of_mem_replicate hc
    subst this
    decide
  · exact toDecimal_all_digit n c hc

theorem strToNat_foldl_lt : ∀ (s : Str) (acc : Nat), (∀ c ∈ s, c.isDigit = true) →
    s.foldl (fun a c => a * 10 + (c.toNat - 48)) acc < (acc + 1) * 10 ^ s.length := by
  intro s
  induction s with
  | nil => intro acc _; simp
  | cons c r ih =>
    intro acc h
    have hc := char_isDigit_toNat (h c (List.mem_cons_self _ _))
    have hr : ∀ x ∈ r, x.isDigit = true := fun x hx => h x (List.mem_cons_of_mem c hx)
    simp only [List.foldl_cons, List.length_cons]
    have hrec := ih (acc * 10 + (c.toNat - 48)) hr
    have hd : c.toNat - 48 ≤ 9 := by omega
    calc List.foldl (fun a c => a * 10 + (c.toNat - 48)) (acc * 10 + (c.toNat - 48)) r
        < (acc * 10 + (c.toNat - 48) + 1) * 10 ^ r.length := hrec
      _ ≤ ((acc + 1) * 10) * 10 ^ r.length := by
          have : acc * 10 + (c.toNat - 48) + 1 ≤ (acc + 1) * 10 := by omega
          exact Nat.mul_le_mul_right _ this
      _ = (acc + 1) * 10 ^ (r.length + 1) := by ring

theorem strToNat_lt {s : Str} (h : ∀ c ∈ s, c.isDigit = true) :
    strToNat s < 10 ^ s.length := by
  have := strToNat_foldl_lt s 0 h
  simpa [strToNat] using this

theorem str_len2 {s : Str} (h : s.length = 2) : ∃ a b, s = [a, b] := by
  cases s with
  | nil => simp at h
  | cons a s1 =>
    cases s1 with
    | nil => simp at h
    | cons b s2 =>
      cases s2 with
      | nil => exact ⟨a, b, rfl⟩
      | cons c s3 => simp at h

theorem str_len4 {s : Str} (h : s.length = 4) : ∃ a b c d, s = [a, b, c, d] := by
  cases s with
  | nil => simp at h
  | cons a s1 =>
    cases s1 with
    | nil => simp at h
    | cons b s2 =>
      cases s2 with
      | nil => simp at h
      | cons c s3 =>
        cases s3 with
        | nil => simp at h
        | cons d s4 =>
          cases s4 with
          | nil => exact ⟨a, b, c, d, rfl⟩
          | cons e s5 => simp at h

theorem jd_date_full_len {s : Str} (h : jd_date_full s = true) : s.length = 10 := by
  unfold jd_date_full at h
  split at h
  next => rfl
  next => exact absurd h (by simp)

theorem jd_date_short_shape {s : Str} (h : jd_date_short s = true) :
    ∃ a b d e, s = [a, b, '-', d, e] ∧ a.isDigit = true ∧ b.isDigit = true ∧
      d.isDigit = true ∧ e.isDigit = true := by
  unfold jd_date_short at h
  split at h
  next a b c d e =>
    simp only [Bool.and_eq_true, decide_eq_true_eq] at h
    obtain ⟨⟨⟨⟨ha, hb⟩, hc⟩, hd⟩, he⟩ := h
    subst hc
    exact ⟨a, b, d, e, rfl, ha, hb, hd, he⟩
  next => exact absurd h (by simp)

theorem jd_full_of_parts {p q r : Str} (hp : p.length = 4)
    (hpd : ∀ c ∈ p, c.isDigit = true) (hq : q.length = 2)
    (hqd : ∀ c ∈ q, c.isDigit = true) (hr : r.length = 2)
    (hrd : ∀ c ∈ r, c.isDigit = true) :
    (p ++ '-' :: q ++ '-' :: r).length = 10 ∧
    jd_date_full (p ++ '-' :: q ++ '-' :: r) = true := by
  obtain ⟨a, b, c, d, rfl⟩ := str_len4 hp
  obtain ⟨e, f, rfl⟩ := str_len2 hq
  obtain ⟨g1, g2, rfl⟩ := str_len2 hr
  refine ⟨rfl, ?_⟩
  show jd_date_full [a, b, c, d, '-', e, f, '-', g1, g2] = true
  unfold jd_date_full
  simp [hpd a (by simp), hpd b (by simp), hpd c (by simp), hpd d (by simp),
    hqd e (by simp), hqd f (by simp), hrd g1 (by simp), hrd g2 (by simp)]

theorem normalize_jd_date_ok {dy : Int} (h1 : 1000 ≤ dy) (h2 : dy ≤ 9999)
    {line nd : Str} (h : normalize_jd_date dy line = some nd) :
    nd.length = 10 ∧ jd_date_full nd = true := by
  unfold normalize_jd_date at h
  by_cases hfull : jd_date_full line
  · rw [if_pos hfull] at h
    simp only [Option.some.injEq] at h
    subst h
    exact ⟨jd_date_full_len hfull, hfull⟩
  · rw [if_neg hfull] at h
    by_cases hshort : jd_date_short line
    · rw [if_pos hshort] at h
      simp only [Option.some.injEq] at h
      subst h
      obtain ⟨a, b, d, e, hline, ha, hb, hd, he⟩ := jd_date_short_shape hshort
      subst hline
      have hint : intToStr dy = toDecimal dy.toNat := by
        unfold intToStr
        rw [if_neg (by omega)]
      have hlen : (toDecimal dy.toNat).length = 4 := toDecimal_length4 (by omega) (by omega)
      have hparts := jd_full_of_parts hlen (toDecimal_all_digit dy.toNat)
        (show ([a, b] : Str).length = 2 from rfl)
        (by
          intro c hc
          simp only [List.mem_cons, List.mem_singleton, List.not_mem_nil, or_false] at hc
          rcases hc with hc | hc
          · subst hc; exact ha
          · subst hc; exact hb)
        (show ([d, e] : Str).length = 2 from rfl)
        (by
          intro c hc
          simp only [List.mem_cons, List.mem_singleton, List.not_mem_nil, or_false] at hc
          rcases hc with hc | hc
          · subst hc; exact hd
          · subst hc; exact he)
      rw [hint]
      simpa using hparts
    · rw [if_neg hshort] at h
      simp at h

theorem strToNat_y_bounds {a b : Char} (ha : a.isDigit = true) (hb : b.isDigit = true) :
    1000 ≤ strToNat ['2', '0', a, b] ∧ strToNat ['2', '0', a, b] ≤ 9999 := by
  obtain ⟨ha1, ha2⟩ := char_isDigit_toNat ha
  obtain ⟨hb1, hb2⟩ := char_isDigit_toNat hb
  have h2c : ('2' : Char).toNat = 50 := rfl
  have h0c : ('0' : Char).toNat = 48 := rfl
  have hval : strToNat ['2', '0', a, b] = 2000 + ((a.toNat - 48) * 10 + (b.toNat - 48)) := by
    simp only [strToNat, List.foldl_cons, List.foldl_nil, h2c, h0c]
    omega
  omega

theorem tmall_date_ok {y mo d : Str} (h : tmall_date_groups y mo d) :
    (tmall_normalize_date y mo d).length = 10 ∧
    jd_date_full (tmall_normalize_date y mo d) = true := by
  obtain ⟨⟨a, b, hy, ha, hb⟩, ⟨hmod, hmol⟩, ⟨hdd, hdl⟩⟩ := h
  subst hy
  obtain ⟨hy1, hy2⟩ := strToNat_y_bounds ha hb
  have hylen : (toDecimal (strToNat ['2', '0', a, b])).length = 4 :=
    toDecimal_length4 hy1 hy2
  have hp4 : (pad0 4 (strToNat ['2', '0', a, b])).length = 4 := pad0_length (by omega)
  have hmoval : strToNat mo < 100 := by
    have hlt := strToNat_lt hmod
    rcases hmol with h1 | h1 <;> rw [h1] at hlt <;> norm_num at hlt <;> omega
  have hdval : strToNat d < 100 := by
    have hlt := strToNat_lt hdd
    rcases hdl with h1 | h1 <;> rw [h1] at hlt <;> norm_num at hlt <;> omega
  have hq2 : (pad0 2 (strToNat mo)).length = 2 :=
    pad0_length (toDecimal_length_le 2 _ (by norm_num) (by norm_num; omega))
  have hr2 : (pad0 2 (strToNat d)).length = 2 :=
    pad0_length (toDecimal_length_le 2 _ (by norm_num) (by norm_num; omega))
  have hparts := jd_full_of_parts hp4 (pad0_all_digit 4 _) hq2 (pad0_all_digit 2 _)
    hr2 (pad0_all_digit 2 _)
  exact hparts

/-- Claim C4 counterexample: with default_year = 5, a short date is prefixed
with "5", producing the 7-character date "5-01-13", which does not match
`\d{4}-\d{2}-\d{2}` — so the invariant fails for an arbitrary integer
default_year. -/
theorem date_shape_counterexample :
    ∃ r ∈ parse_jd "avatar\nA1\nstar\n01-13\navatar".data 5,
      ¬(r.date.length = 10 ∧ jd_date_full r.date = true) := by decide

/-- Claim C4 (amended): provided default_year lies between 1000 and 9999 (its
decimal form has exactly four digits), every record emitted by either parser
carries a 10-character date matching `\d{4}-\d{2}-\d{2}`; Layout B needs no
assumption on default_year. -/
theorem date_shape_invariant (default_year : Int) (h1 : 1000 ≤ default_year)
    (h2 : default_year ≤ 9999) :
    (∀ (t : Str) (r : Record), r ∈ parse_jd t default_year →
      r.date.length = 10 ∧ jd_date_full r.date = true) ∧
    (∀ (t : Str) (r : Record), r ∈ parse_tmall t →
      r.date.length = 10 ∧ jd_date_full r.date = true) := by
  constructor
  · intro t r h
    obtain ⟨⟨line, hline⟩, _⟩ := parse_jd_mem h
    exact normalize_jd_date_ok h1 h2 hline
  · intro t r h
    obtain ⟨⟨y, mo, d, hg, hdate⟩, _⟩ := parse_tmall_mem h
    rw [hdate]
    exact tmall_date_ok hg

/-- Concrete application of the C4 theorem. -/
theorem date_shape_invariant_witness :
    ("2026-01-13".data.length = 10 ∧ jd_date_full ("2026-01-13".data) = true) :=
  (date_shape_invariant 2026 (by norm_num) (by norm_num)).1
    ("avatar\nA1\nstar\n01-13\nbody1\navatar".data)
    ⟨"A1".data, "2026-01-13".data, noContent⟩ (by decide)

/-! Suffix-length bounds for the JD loops and fuel irrelevance (toward C6). -/

theorem starScan_length_le : ∀ l : List Str, (starScan l).length ≤ l.length := by
  intro l
  induction l with
  | nil => simp [starScan]
  | cons x r ih =>
    simp only [starScan]
    by_cases h : x = "star".data ∨ x = "avatar".data
    · rw [if_pos h]
    · rw [if_neg h]
      simp only [List.length_cons]
      omega

theorem dateScan_length_le (dy : Int) : ∀ (l : List Str) (steps : Nat),
    (dateScan dy l steps).2.length ≤ l.length := by
  intro l
  induction l with
  | nil => intro steps; simp [dateScan]
  | cons x r ih =>
    intro steps
    simp only [dateScan]
    by_cases h40 : 40 ≤ steps
    · rw [if_pos h40]
    · rw [if_neg h40]
      by_cases hav : x = "avatar".data
      · rw [if_pos hav]
      · rw [if_neg hav]
        cases hnd : normalize_jd_date dy x with
        | some nd => simp
        | none =>
          have := ih (steps + 1)
          simp only [List.length_cons]
          omega

theorem productStep_length_le : ∀ l : List Str, (productStep l).2.length ≤ l.length := by
  intro l
  cases l with
  | nil => simp [productStep]
  | cons p r =>
    simp only [productStep]
    by_cases h : p ≠ "avatar".data ∧ is_noise_jd p = false
    · rw [if_pos h]
      simp
    · rw [if_neg h]

theorem jdBody_length_le (author draw : Str) (product : Option Str) :
    ∀ l : List Str, (jdBody author draw product l).2.length ≤ l.length := by
  intro l
  induction l with
  | nil => simp [jdBody]
  | cons c r ih =>
    simp only [jdBody]
    by_cases h1 : c = "avatar".data
    · rw [if_pos h1]
    · rw [if_neg h1]
      by_cases h2 : ("商家回复".data).isPrefixOf c
      · rw [if_pos h2]
        exact ih.trans (by simp)
      · rw [if_neg h2]
        by_cases h3 : c = author
        · rw [if_pos h3]
          exact ih.trans (by simp)
        · rw [if_neg h3]
          by_cases h4 : draw ≠ [] ∧ c = draw
          · rw [if_pos h4]
            exact ih.trans (by simp)
          · rw [if_neg h4]
            by_cases h5 : (match product with
                | some p => decide (p ≠ []) && decide (c = p)
                | none => false)
            · rw [if_pos h5]
              exact ih.trans (by simp)
            · rw [if_neg h5]
              cases hb : jdBody author draw product r with
              | mk cs rem =>
                rw [hb] at ih
                have ih2 : rem.length ≤ r.length := by simpa using ih
                simp only [hb, List.length_cons]
                simp
                omega

theorem jdLoop_fuel_irrel (dy : Int) : ∀ (f1 f2 : Nat) (ls : List Str),
    ls.length < f1 → ls.length < f2 → jdLoop dy f1 ls = jdLoop dy f2 ls := by
  intro f1
  induction f1 with
  | zero => intro f2 ls h1 _; omega
  | succ f1 ih =>
    intro f2 ls h1 h2
    cases f2 with
    | zero => omega
    | succ f2 =>
      cases ls with
      | nil => simp [jdLoop]
      | cons l rest =>
        simp only [jdLoop]
        simp only [List.length_cons] at h1 h2
        by_cases hl : l ≠ "avatar".data
        · rw [if_pos hl, if_pos hl]
          exact ih f2 rest (by omega) (by omega)
        · rw [if_neg hl, if_neg hl]
          cases rest with
          | nil => rfl
          | cons a rest2 =>
            simp only [List.length_cons] at h1 h2
            cases hss : starScan rest2 with
            | nil => simp only [hss]
            | cons s srest =>
              have hsslen : (s :: srest).length ≤ rest2.length := by
                rw [← hss]; exact starScan_length_le rest2
              simp only [List.length_cons] at hsslen
              simp only [hss]
              by_cases hs : s = "avatar".data
              · rw [if_pos hs, if_pos hs]
                exact ih f2 (s :: srest) (by simp; omega) (by simp; omega)
              · rw [if_neg hs, if_neg hs]
                cases hds : dateScan dy srest 0 with
                | mk od rem =>
                  have hremlen : rem.length ≤ srest.length := by
                    have := dateScan_length_le dy srest 0
                    rw [hds] at this
                    exact this
                  cases od with
                  | none =>
                    simp only [hds]
                    exact ih f2 rem (by omega) (by omega)
                  | some dd =>
                    obtain ⟨date, draw⟩ := dd
                    simp only [hds]
                    congr 1
                    have hplen : (productStep rem).2.length ≤ rem.length :=
                      productStep_length_le rem
                    have hblen : (jdBody (strip a) draw (productStep rem).1
                        (productStep rem).2).2.length ≤ (productStep rem).2.length :=
                      jdBody_length_le _ _ _ _
                    exact ih f2 _ (by omega) (by omega)

theorem jdLoop_skip (dy : Int) : ∀ (pre : List Str) (fuel : Nat) (suffix : List Str),
    (∀ l ∈ pre, l ≠ "avatar".data) → (pre ++ suffix).length < fuel →
    jdLoop dy fuel (pre ++ suffix) = jdLoop dy (fuel - pre.length) suffix := by
  intro pre
  induction pre with
  | nil => intro fuel suffix _ _; simp
  | cons p pre ih =>
    intro fuel suffix hpre hlen
    cases fuel with
    | zero => simp at hlen
    | succ fuel =>
      show jdLoop dy (fuel + 1) (p :: (pre ++ suffix)) = _
      simp only [jdLoop]
      rw [if_pos (hpre p (List.mem_cons_self _ _))]
      have hrec := ih fuel suffix (fun l hl => hpre l (List.mem_cons_of_mem _ hl))
        (by simp at hlen ⊢; omega)
      rw [hrec]
      have harith : fuel + 1 - (p :: pre).length = fuel - pre.length := by
        simp only [List.length_cons]
        omega
      rw [harith]

theorem dateScan_no_date (dy : Int) : ∀ (mid : List Str) (steps : Nat) (rest : List Str),
    (∀ l ∈ mid.take (40 - steps), normalize_jd_date dy l = none) →
    (∀ l ∈ mid, l ≠ "avatar".data) →
    ∃ mid', (∀ l ∈ mid', l ∈ mid) ∧ mid'.length ≤ mid.length ∧
      dateScan dy (mid ++ "avatar".data :: rest) steps
        = (none, mid' ++ "avatar".data :: rest) := by
  intro mid
  induction mid with
  | nil =>
    intro steps rest _ _
    refine ⟨[], by simp, by simp, ?_⟩
    simp only [List.nil_append, dateScan]
    by_cases h40 : 40 ≤ steps
    · rw [if_pos h40]
    · rw [if_neg h40]
      simp
  | cons m mid ih =>
    intro steps rest h1 h2
    by_cases h40 : 40 ≤ steps
    · refine ⟨m :: mid, fun l hl => hl, le_refl _, ?_⟩
      simp only [List.cons_append, dateScan]
      rw [if_pos h40]
      rfl
    · have htk : (m :: mid).take (40 - steps) = m :: mid.take (40 - steps - 1) := by
        have hk : 40 - steps = (40 - steps - 1) + 1 := by omega
        rw [hk, List.take_succ_cons]
        simp
      have hm : normalize_jd_date dy m = none := by
        apply h1
        rw [htk]
        exact List.mem_cons_self _ _
      have hmav : m ≠ "avatar".data := h2 m (List.mem_cons_self _ _)
      have h1' : ∀ l ∈ mid.take (40 - (steps + 1)), normalize_jd_date dy l = none := by
        intro l hl
        apply h1
        rw [htk]
        apply List.mem_cons_of_mem
        have : 40 - (steps + 1) = 40 - steps - 1 := by omega
        rw [← this]
        exact hl
      obtain ⟨mid', hmem, hlen, heq⟩ := ih (steps + 1) rest h1'
        (fun l hl => h2 l (List.mem_cons_of_mem _ hl))
      refine ⟨mid', fun l hl => List.mem_cons_of_mem _ (hmem l hl),
        by simp; omega, ?_⟩
      simp only [List.cons_append, dateScan]
      rw [if_neg h40, if_neg hmav, hm]
      exact heq

/-- Claim C6: when, after the rating marker, no date-shaped line occurs within
the 40-line search bound and the region up to the next anchor contains no
anchor line, no record is emitted for that anchor; the scan resumes where the
search stopped, so the records are exactly those of running the parse from
the next anchor on.  (Both sides are total functions — the embedded parse
cannot raise.) -/
theorem jd_abandoned_anchor (dy : Int) (author : Str) (mid rest : List Str)
    (h1 : ∀ l ∈ mid.take 40, normalize_jd_date dy l = none)
    (h2 : ∀ l ∈ mid, l ≠ "avatar".data) :
    jd_rows dy
        ("avatar".data :: author :: "star".data :: (mid ++ "avatar".data :: rest))
      = jd_rows dy ("avatar".data :: rest) := by
  obtain ⟨mid', hmem, hlen, heq⟩ := dateScan_no_date dy mid 0 rest
    (by simpa using h1) h2
  have main : ∀ fuel : Nat,
      ("avatar".data :: author :: "star".data :: (mid ++ "avatar".data :: rest)).length
        < fuel →
      jdLoop dy fuel
          ("avatar".data :: author :: "star".data :: (mid ++ "avatar".data :: rest))
        = jdLoop dy (("avatar".data :: rest).length + 1) ("avatar".data :: rest) := by
    intro fuel hf
    cases fuel with
    | zero => simp at hf
    | succ f =>
      simp only [List.length_cons, List.length_append] at hf
      have hstar : starScan ("star".data :: (mid ++ "avatar".data :: rest))
          = "star".data :: (mid ++ "avatar".data :: rest) := by
        simp [starScan]
      conv_lhs => simp only [jdLoop]
      rw [if_neg (by simp)]
      simp only [hstar]
      rw [if_neg (by decide)]
      simp only [heq]
      rw [jdLoop_skip dy mid' f ("avatar".data :: rest)
        (fun l hl => h2 l (hmem l hl))
        (by simp only [List.length_cons, List.length_append]; omega)]
      apply jdLoop_fuel_irrel
      · simp only [List.length_cons]
        omega
      · simp
  unfold jd_rows
  apply main
  omega

/-- Concrete application of the C6 theorem: an anchor whose region has no
date line is dropped; the following anchor's record is still produced. -/
theorem jd_abandoned_anchor_witness :
    jd_rows 2026
        ("avatar".data :: "A1".data :: "star".data ::
          (["xx".data] ++ "avatar".data ::
            ["A2".data, "star".data, "01-13".data, "hello".data, "wow".data]))
      = jd_rows 2026
          ("avatar".data ::
            ["A2".data, "star".data, "01-13".data, "hello".data, "wow".data]) :=
  jd_abandoned_anchor 2026 ("A1".data) ["xx".data]
    ["A2".data, "star".data, "01-13".data, "hello".data, "wow".data]
    (by decide) (by decide)

/-- Claim C7: the author attached to a Layout-B record is the nearest of the
up-to-6 lines preceding its purchase marker (held in `prev`, nearest first)
that looks like an author id and is not layout noise, and the fixed "UNKNOWN"
sentinel when none of them qualifies. -/
theorem pickAuthor_spec : ∀ prev : List Str,
    pickAuthor prev
      = (((prev.take 6).find? (fun c => looks_like_author_id c && !is_noise_tmall c)).getD
          ("UNKNOWN".data)) := by
  intro prev
  rcases prev with _ | ⟨a, _ | ⟨b, _ | ⟨c, _ | ⟨d, _ | ⟨e, _ | ⟨f, rs⟩⟩⟩⟩⟩⟩ <;>
    simp only [pickAuthor, pickAuthorGo, List.get?, List.find?, List.take] <;>
    norm_num <;>
    repeat' split <;> simp_all

/-! Toward the preprocessor characterization (C8). -/

theorem findIdx?_first : ∀ (lines : List Str) (i : Nat),
    (∀ j, j < i → lines.get? j ≠ some ("avatar".data)) →
    lines.get? i = some ("avatar".data) →
    List.findIdx? (fun l => l == "avatar".data) lines = some i := by
  intro lines
  induction lines with
  | nil => intro i _ hi; simp at hi
  | cons x rest ih =>
    intro i hlt hi
    rw [List.findIdx?_cons]
    by_cases hx : x = "avatar".data
    · cases i with
      | zero => simp [hx]
      | succ i0 =>
        exfalso
        exact hlt 0 (by omega) (by simpa using hx)
    · rw [if_neg (by simpa using hx)]
      cases i with
      | zero =>
        exfalso
        apply hx
        simpa using hi
      | succ i0 =>
        rw [List.findIdx?_succ]
        have hlt' : ∀ j, j < i0 → rest.get? j ≠ some ("avatar".data) := by
          intro j hj
          exact hlt (j + 1) (by omega)
        have hi' : rest.get? i0 = some ("avatar".data) := hi
        rw [ih i0 hlt' hi']
        rfl

theorem findSecondHeader_one : ∀ (ls : List Str) (idx : Nat),
    findSecondHeader ls idx 1
      = ((((List.enumFrom idx ls).filter
          (fun p => containsSub ("京东首页".data) p.2)).map Prod.fst).get? 0) := by
  intro ls
  induction ls with
  | nil => intro idx; simp [findSecondHeader]
  | cons l rest ih =>
    intro idx
    simp only [findSecondHeader]
    rw [show List.enumFrom idx (l :: rest) = (idx, l) :: List.enumFrom (idx + 1) rest
      from rfl, List.filter_cons]
    by_cases hc : containsSub ("京东首页".data) l
    · rw [if_pos hc, if_pos (by omega)]
      simp [hc]
    · rw [if_neg hc]
      simp only [hc]
      rw [if_neg (by simp)]
      exact ih (idx + 1)

theorem findSecondHeader_zero : ∀ (ls : List Str) (idx : Nat),
    findSecondHeader ls idx 0
      = ((((List.enumFrom idx ls).filter
          (fun p => containsSub ("京东首页".data) p.2)).map Prod.fst).get? 1) := by
  intro ls
  induction ls with
  | nil => intro idx; simp [findSecondHeader]
  | cons l rest ih =>
    intro idx
    simp only [findSecondHeader]
    rw [show List.enumFrom idx (l :: rest) = (idx, l) :: List.enumFrom (idx + 1) rest
      from rfl, List.filter_cons]
    by_cases hc : containsSub ("京东首页".data) l
    · rw [if_pos hc, if_neg (by omega), findSecondHeader_one rest (idx + 1)]
      simp [hc]
    · rw [if_neg hc]
      simp only [hc]
      rw [if_neg (by simp)]
      exact ih (idx + 1)

/-- Claim C8: the Layout A preprocessor normalizes the text to lines; when no
line equals the anchor token it returns the lines unchanged; otherwise it
drops every line before the first anchor line and, when the fixed header
phrase occurs (as a substring) in a second line of the remaining sequence,
truncates the sequence to end just before that line.  It is a total function
of the normalized lines (worst case an unmodified sequence). -/
theorem preclean_jd_spec :
    (∀ t : Str, preclean_jd_text t = joinLines (preclean_jd_lines (normalize_lines t))) ∧
    (∀ lines : List Str, "avatar".data ∉ lines → preclean_jd_lines lines = lines) ∧
    (∀ (lines : List Str) (i : Nat),
      (∀ j, j < i → lines.get? j ≠ some ("avatar".data)) →
      lines.get? i = some ("avatar".data) →
      preclean_jd_lines lines
        = match ((((lines.drop i).enum).filter
              (fun p => containsSub ("京东首页".data) p.2)).map Prod.fst).get? 1 with
          | some cut => (lines.drop i).take cut
          | none => lines.drop i) := by
  refine ⟨?_, ?_, ?_⟩
  · intro t
    unfold preclean_jd_text
    by_cases h : normalize_lines t = []
    · rw [if_pos h, h]
      rfl
    · rw [if_neg h]
  · intro lines hmem
    unfold preclean_jd_lines
    rw [List.findIdx?_eq_none_iff.mpr ?_]
    intro x hx
    simp only [beq_eq_false_iff_ne, ne_eq]
    intro hxa
    apply hmem
    rw [hxa] at hx
    exact hx
  · intro lines i hlt hi
    unfold preclean_jd_lines
    rw [findIdx?_first lines i hlt hi]
    simp only
    rw [findSecondHeader_zero (lines.drop i) 0]
    rfl

/-- Concrete application of the C8 theorem at `precleanSample`, anchor at
index 1. -/
theorem preclean_jd_spec_witness :
    preclean_jd_lines precleanSample
      = match ((((precleanSample.drop 1).enum).filter
            (fun p => containsSub ("京东首页".data) p.2)).map Prod.fst).get? 1 with
        | some cut => (precleanSample.drop 1).take cut
        | none => precleanSample.drop 1 :=
  preclean_jd_spec.2.2 precleanSample 1 (by decide) (by decide)

/-! Fuel irrelevance for the Tmall loop: the parse entry's fuel choice is
semantically invisible. -/

theorem tmBody_length_le : ∀ (prev l : List Str),
    (tmBody prev l).2.2.2.length ≤ l.length := by
  intro prev l
  induction l generalizing prev with
  | nil => simp [tmBody]
  | cons x rest ih =>
    simp only [tmBody]
    by_cases h1 : (tmall_purchase_match x).isSome
    · rw [if_pos h1]
    · rw [if_neg h1]
      by_cases h2 : is_start_of_next_review x rest
      · rw [if_pos h2]
      · rw [if_neg h2]
        by_cases h3 : ("商家回复".data).isPrefixOf x
        · rw [if_pos h3]
          exact (ih (x :: prev)).trans (by simp)
        · rw [if_neg h3]
          cases ha : tmall_append_match x with
          | some g =>
            cases hb : tmBody (x :: prev) rest with
            | mk m res2 =>
              have := ih (x :: prev)
              rw [hb] at this
              simp only [hb]
              simp only [List.length_cons]
              simp at this ⊢
              omega
          | none =>
            cases hb : tmBody (x :: prev) rest with
            | mk m res2 =>
              have := ih (x :: prev)
              rw [hb] at this
              simp only [hb]
              simp only [List.length_cons]
              simp at this ⊢
              omega

theorem tmLoop_fuel_irrel : ∀ (f1 f2 : Nat) (prev ls : List Str),
    ls.length < f1 → ls.length < f2 → tmLoop f1 prev ls = tmLoop f2 prev ls := by
  intro f1
  induction f1 with
  | zero => intro f2 prev ls h1 _; omega
  | succ f1 ih =>
    intro f2 prev ls h1 h2
    cases f2 with
    | zero => omega
    | succ f2 =>
      cases ls with
      | nil => simp [tmLoop]
      | cons l rest =>
        simp only [tmLoop]
        simp only [List.length_cons] at h1 h2
        cases hm : tmall_purchase_match l with
        | none =>
          simp only [hm]
          exact ih f2 (l :: prev) rest (by omega) (by omega)
        | some q =>
          obtain ⟨y, mo, d, desc⟩ := q
          simp only [hm]
          congr 1
          have := tmBody_length_le (l :: prev) rest
          exact ih f2 _ _ (by omega) (by omega)
